import Mathlib

/-!
Verification of the AstroChart angular core: the collision-layout engine,
the aspect calculator and the animation engine, embedded shallowly over ℚ.

The repository ships only the test suites for `utils.ts`, `aspect.ts` and
the animator; the implementation modules themselves are absent, so every
operation below is modelled from the specification (and cross-checked
against the repository's test files, which pin concrete behaviour).

Rational arithmetic helpers: the kernel does not reduce `Rat.add`,
`Rat.sub`, `Rat.mul` or `Rat.div`, so the executable definitions use
`mkRat`-based equivalents (`qadd`, `qsub`, `qneg`, `qabs`, `qhalf`),
each accompanied by a lemma identifying it with the ordinary field
operation on ℚ.  All proofs immediately rewrite to the ordinary
operations; `decide` evaluates the `mkRat` forms on concrete inputs.
-/

namespace AstroChart

/-- Embeds `z` as a rational number, in a form the kernel reduces. -/
def qofInt (z : ℤ) : ℚ := mkRat z 1

/-- Kernel-reducible addition on ℚ (equals `a + b`, see `qadd_eq`). -/
def qadd (a b : ℚ) : ℚ := mkRat (a.num * (b.den : ℤ) + b.num * (a.den : ℤ)) (a.den * b.den)

/-- Kernel-reducible negation on ℚ (equals `-a`, see `qneg_eq`). -/
def qneg (a : ℚ) : ℚ := mkRat (-a.num) a.den

/-- Kernel-reducible subtraction on ℚ (equals `a - b`, see `qsub_eq`). -/
def qsub (a b : ℚ) : ℚ := qadd a (qneg b)

/-- Kernel-reducible absolute value on ℚ (equals `|a|`, see `qabs_eq`). -/
def qabs (a : ℚ) : ℚ := if a < 0 then qneg a else a

/-- Kernel-reducible halving on ℚ (equals `a / 2`, see `qhalf_eq`). -/
def qhalf (a : ℚ) : ℚ := mkRat a.num (2 * a.den)

/-- Kernel-reducible `⌊x / 360⌋` (see `floorDiv360_eq`). -/
def floorDiv360 (x : ℚ) : ℤ := x.num / (360 * (x.den : ℤ))

theorem qofInt_eq (z : ℤ) : qofInt z = (z : ℚ) := by
  unfold qofInt
  rw [Rat.mkRat_eq_divInt, Rat.divInt_eq_div]
  simp

theorem qadd_eq (a b : ℚ) : qadd a b = a + b := by
  unfold qadd
  rw [Rat.mkRat_eq_divInt, Rat.divInt_eq_div]
  have ha : (a.den : ℚ) ≠ 0 := Nat.cast_ne_zero.mpr a.den_nz
  have hb : (b.den : ℚ) ≠ 0 := Nat.cast_ne_zero.mpr b.den_nz
  conv_rhs => rw [← Rat.num_div_den a, ← Rat.num_div_den b]
  push_cast
  field_simp

theorem qneg_eq (a : ℚ) : qneg a = -a := by
  unfold qneg
  rw [Rat.mkRat_eq_divInt, Rat.divInt_eq_div]
  have ha : (a.den : ℚ) ≠ 0 := Nat.cast_ne_zero.mpr a.den_nz
  conv_rhs => rw [← Rat.num_div_den a]
  push_cast
  field_simp

theorem qsub_eq (a b : ℚ) : qsub a b = a - b := by
  unfold qsub
  rw [qadd_eq, qneg_eq]
  ring

theorem qabs_eq (a : ℚ) : qabs a = |a| := by
  unfold qabs
  rcases lt_or_le a 0 with h | h
  · simp [h, qneg_eq, abs_of_neg h]
  · simp [not_lt.mpr h, abs_of_nonneg h]

theorem qhalf_eq (a : ℚ) : qhalf a = a / 2 := by
  unfold qhalf
  rw [Rat.mkRat_eq_divInt, Rat.divInt_eq_div]
  have ha : (a.den : ℚ) ≠ 0 := Nat.cast_ne_zero.mpr a.den_nz
  conv_rhs => rw [← Rat.num_div_den a]
  push_cast
  field_simp
  exact Or.inl (by ring)

theorem floorDiv360_eq (x : ℚ) : floorDiv360 x = ⌊x / 360⌋ := by
  unfold floorDiv360
  have h : x / 360 = ((x.num : ℚ) / ((360 * x.den : ℕ) : ℚ)) := by
    conv_lhs => rw [← Rat.num_div_den x]
    push_cast
    have hd : (x.den : ℚ) ≠ 0 := Nat.cast_ne_zero.mpr x.den_nz
    field_simp
    exact Or.inl (by ring)
  rw [h, Rat.floor_intCast_div_natCast]
  push_cast
  ring_nf

/-- Modelled from the spec: `utils.ts` is not in the repository sources;
normalization of an angle into `[0, 360)` via the JavaScript idiom
`((angle % 360) + 360) % 360`, which coincides with the floor-based
remainder `x - 360 * ⌊x / 360⌋` computed here. -/
def normalizeAngle (x : ℚ) : ℚ := qsub x (qofInt (360 * floorDiv360 x))

theorem normalizeAngle_eq (x : ℚ) : normalizeAngle x = x - 360 * ⌊x / 360⌋ := by
  unfold normalizeAngle
  rw [qsub_eq, qofInt_eq, floorDiv360_eq]
  push_cast
  ring

theorem normalizeAngle_nonneg (x : ℚ) : 0 ≤ normalizeAngle x := by
  rw [normalizeAngle_eq]
  have h : (⌊x / 360⌋ : ℚ) ≤ x / 360 := Int.floor_le (x / 360)
  nlinarith

theorem normalizeAngle_lt (x : ℚ) : normalizeAngle x < 360 := by
  rw [normalizeAngle_eq]
  have h : x / 360 < ⌊x / 360⌋ + 1 := Int.lt_floor_add_one (x / 360)
  nlinarith

/-- Characterisation: `normalizeAngle x` is the unique representative of
`x` modulo 360 lying in `[0, 360)`. -/
theorem normalizeAngle_eq_of (x v : ℚ) (k : ℤ) (h0 : 0 ≤ v) (h1 : v < 360)
    (hk : x - v = 360 * k) : normalizeAngle x = v := by
  have hmem : normalizeAngle x - v = 360 * (((k - ⌊x / 360⌋ : ℤ) : ℤ) : ℚ) := by
    rw [normalizeAngle_eq]
    push_cast
    linarith [hk]
  have hn0 := normalizeAngle_nonneg x
  have hn1 := normalizeAngle_lt x
  have hm1 : (-1 : ℚ) < (((k - ⌊x / 360⌋ : ℤ) : ℤ) : ℚ) := by linarith
  have hm2 : ((((k - ⌊x / 360⌋ : ℤ) : ℤ) : ℚ)) < 1 := by linarith
  have hz1 : (-1 : ℤ) < k - ⌊x / 360⌋ := by exact_mod_cast hm1
  have hz2 : k - ⌊x / 360⌋ < 1 := by exact_mod_cast hm2
  have hz : k - ⌊x / 360⌋ = 0 := by omega
  have hq : (((k - ⌊x / 360⌋ : ℤ) : ℤ) : ℚ) = 0 := by exact_mod_cast hz
  rw [hq] at hmem
  linarith

theorem normalizeAngle_eq_self (x : ℚ) (h0 : 0 ≤ x) (h1 : x < 360) :
    normalizeAngle x = x :=
  normalizeAngle_eq_of x x 0 h0 h1 (by ring)

/-- Stepping forward without crossing the seam adds to the normalized angle. -/
theorem normalizeAngle_add (x h : ℚ) (hh : 0 ≤ h)
    (hlt : normalizeAngle x + h < 360) : normalizeAngle (x + h) = normalizeAngle x + h := by
  refine normalizeAngle_eq_of (x + h) (normalizeAngle x + h) ⌊x / 360⌋ ?_ hlt ?_
  · have := normalizeAngle_nonneg x
    linarith
  · rw [normalizeAngle_eq]
    ring

/-- Negating the argument reflects the normalized angle across the seam. -/
theorem normalizeAngle_neg (x : ℚ) :
    normalizeAngle (-x) = if normalizeAngle x = 0 then 0 else 360 - normalizeAngle x := by
  rcases eq_or_ne (normalizeAngle x) 0 with h | h
  · rw [if_pos h]
    have hk : x - 0 = 360 * ⌊x / 360⌋ := by
      have := normalizeAngle_eq x
      rw [h] at this
      linarith
    refine normalizeAngle_eq_of (-x) 0 (-⌊x / 360⌋) le_rfl (by norm_num) ?_
    push_cast
    linarith
  · rw [if_neg h]
    have h0 := normalizeAngle_nonneg x
    have h1 := normalizeAngle_lt x
    refine normalizeAngle_eq_of (-x) (360 - normalizeAngle x) (-⌊x / 360⌋ - 1) ?_ ?_ ?_
    · linarith
    · have : 0 < normalizeAngle x := lt_of_le_of_ne h0 (Ne.symm h)
      linarith
    · rw [normalizeAngle_eq]
      push_cast
      ring

/-- Modelled from the spec: `utils.ts` is not in the repository sources;
the shortest angular distance between two angles, in `[0, 180]`:
`min d (360 - d)` for `d = |a - b| mod 360`. -/
def angularGap (a b : ℚ) : ℚ :=
  let d := normalizeAngle (qabs (qsub a b))
  if d ≤ 180 then d else qsub 360 d

/-- The signed position of `p` around the circle relative to `t`, in `[0, 360)`. -/
def deltaAngle (p t : ℚ) : ℚ := normalizeAngle (qsub p t)

theorem deltaAngle_eq (p t : ℚ) : deltaAngle p t = normalizeAngle (p - t) := by
  unfold deltaAngle
  rw [qsub_eq]

theorem deltaAngle_nonneg (p t : ℚ) : 0 ≤ deltaAngle p t := by
  rw [deltaAngle_eq]; exact normalizeAngle_nonneg _

theorem deltaAngle_lt (p t : ℚ) : deltaAngle p t < 360 := by
  rw [deltaAngle_eq]; exact normalizeAngle_lt _

/-- The gap expressed through the signed relative position `deltaAngle`. -/
theorem angularGap_eq_delta (a b : ℚ) :
    angularGap a b = if deltaAngle a b ≤ 180 then deltaAngle a b else 360 - deltaAngle a b := by
  unfold angularGap
  rw [deltaAngle_eq, qabs_eq, qsub_eq]
  rcases le_or_lt b a with hba | hba
  · have habs : |a - b| = a - b := abs_of_nonneg (by linarith)
    rw [habs]
    rcases le_or_lt (normalizeAngle (a - b)) 180 with h | h
    · rw [if_pos h, if_pos h]
    · rw [if_neg (not_le.mpr h), if_neg (not_le.mpr h), qsub_eq]
  · have habs : |a - b| = -(a - b) := abs_of_neg (by linarith)
    rw [habs, normalizeAngle_neg]
    rcases eq_or_ne (normalizeAngle (a - b)) 0 with h0 | h0
    · rw [if_pos h0, h0]
      norm_num
    · rw [if_neg h0]
      have hpos : 0 < normalizeAngle (a - b) := lt_of_le_of_ne (normalizeAngle_nonneg _) (Ne.symm h0)
      have hlt : normalizeAngle (a - b) < 360 := normalizeAngle_lt _
      rcases le_or_lt (normalizeAngle (a - b)) 180 with h | h
      · rcases eq_or_lt_of_le h with he | hlt'
        · rw [he]
          norm_num
        · rw [if_neg (by push_neg; linarith), if_pos h, qsub_eq]
          ring
      · rw [if_pos (by linarith), if_neg (not_le.mpr h)]

theorem angularGap_symm (a b : ℚ) : angularGap a b = angularGap b a := by
  unfold angularGap
  rw [qsub_eq, qsub_eq, qabs_eq, qabs_eq, abs_sub_comm]

theorem angularGap_nonneg (a b : ℚ) : 0 ≤ angularGap a b := by
  rw [angularGap_eq_delta]
  have h0 := deltaAngle_nonneg a b
  have h1 := deltaAngle_lt a b
  split <;> linarith

theorem angularGap_le (a b : ℚ) : angularGap a b ≤ 180 := by
  rw [angularGap_eq_delta]
  have h0 := deltaAngle_nonneg a b
  have h1 := deltaAngle_lt a b
  split <;> linarith

/-- Modelled from the spec: `radix.ts` is not in the repository sources; a
body placed in chart space.  `angle` is the display angle, `pointer`
optionally retains the pre-adjustment (original) angle so repeated
collision passes reason about original intent. -/
structure LocatedPoint where
  name : String
  x : ℚ
  y : ℚ
  r : ℚ
  angle : ℚ
  pointer : Option ℚ
  deriving DecidableEq

/-- Modelled from the spec: the bounding circle for a layout pass. -/
structure Universe where
  cx : ℚ
  cy : ℚ
  r : ℚ
  deriving DecidableEq

/-- Modelled from the spec: `utils.ts` is not in the repository sources;
a candidate angle is in collision when its angular gap to some existing
point is strictly below the configured tolerance (degrees). -/
def isInCollision (angle : ℚ) (points : List LocatedPoint) (tolerance : ℚ) : Bool :=
  points.any fun p => decide (angularGap angle p.angle < tolerance)

/-- Modelled from the spec: `utils.ts` is not in the repository sources;
symmetric conflict resolution between two colliding points.  Each point's
effective angle (its `pointer` — the original angle — when present,
otherwise its `angle`) is moved one degree away from the other, in
opposite directions (on a tie the first point moves down, the second up),
the results are renormalized into `[0, 360)`, and the pre-adjustment
angle is retained in `pointer`. -/
def placePointsInCollision (p1 p2 : LocatedPoint) : LocatedPoint × LocatedPoint :=
  let a1 := p1.pointer.getD p1.angle
  let a2 := p2.pointer.getD p2.angle
  if a1 ≤ a2 then
    ({ p1 with angle := normalizeAngle (qsub a1 1), pointer := some a1 },
     { p2 with angle := normalizeAngle (qadd a2 1), pointer := some a2 })
  else
    ({ p1 with angle := normalizeAngle (qadd a1 1), pointer := some a1 },
     { p2 with angle := normalizeAngle (qsub a2 1), pointer := some a2 })

/-- Modelled from the spec: one resolution attempt inside `assemble`.
Finds the first existing point in collision with the new point and nudges
the conflicting pair via `placePointsInCollision`; `none` when the new
point collides with nothing. -/
def resolveStep : List LocatedPoint → LocatedPoint → ℚ → Option (List LocatedPoint × LocatedPoint)
  | [], _, _ => none
  | p :: ps, newP, tol =>
    if angularGap newP.angle p.angle < tol then
      some ((placePointsInCollision p newP).1 :: ps, (placePointsInCollision p newP).2)
    else
      (resolveStep ps newP tol).map fun r => (p :: r.1, r.2)

/-- The unresolved-collision failure message (the repository test asserts
the thrown message contains this text). -/
def unresolvedCollisionMsg : String := "Unresolved planet collision"

/-- Modelled from the spec: the maximum number of resolution attempts for
one `assemble` call.  The spec leaves the exact constant open and only
requires it to be proportional to the working set size. -/
def resolutionBound (n : ℕ) : ℕ := 2 * (n + 1)

/-- Modelled from the spec: the bounded resolution loop of `assemble` —
while a collision exists, nudge the conflicting pair and re-check; when
the attempt budget is exhausted with a collision still present, fail
fatally with the unresolved-collision condition. -/
def resolveLoop : ℕ → List LocatedPoint → LocatedPoint → ℚ → Except String (List LocatedPoint)
  | 0, existing, newP, tol =>
    if isInCollision newP.angle existing tol then Except.error unresolvedCollisionMsg
    else Except.ok (existing ++ [newP])
  | Nat.succ fuel, existing, newP, tol =>
    match resolveStep existing newP tol with
    | none => Except.ok (existing ++ [newP])
    | some r => resolveLoop fuel r.1 r.2 tol

/-- Modelled from the spec: `utils.ts` is not in the repository sources;
incremental layout — attempt to add `point` to `locatedPoints` without
collision.  A first point is placed immediately; otherwise the bounded
resolution loop runs.  The universe argument is carried for signature
fidelity; the resolution algorithm itself is purely angular. -/
def assemble (locatedPoints : List LocatedPoint) (point : LocatedPoint)
    (univ : Universe) (tolerance : ℚ) : Except String (List LocatedPoint) :=
  if locatedPoints.isEmpty then Except.ok [point]
  else resolveLoop (resolutionBound locatedPoints.length) locatedPoints point tolerance

theorem resolveStep_none_iff (newP : LocatedPoint) (tol : ℚ) :
    ∀ existing : List LocatedPoint,
      resolveStep existing newP tol = none ↔ isInCollision newP.angle existing tol = false
  | [] => by simp [resolveStep, isInCollision]
  | p :: ps => by
    have ih := resolveStep_none_iff newP tol ps
    rw [isInCollision] at ih ⊢
    simp only [resolveStep, List.any_cons]
    rcases lt_or_le (angularGap newP.angle p.angle) tol with h | h
    · simp [h]
    · simp only [if_neg (not_lt.mpr h), Option.map_eq_none']
      simp [not_lt.mpr h, ih]

theorem resolveLoop_ok :
    ∀ (fuel : ℕ) (existing : List LocatedPoint) (newP : LocatedPoint) (tol : ℚ)
      (l : List LocatedPoint), resolveLoop fuel existing newP tol = Except.ok l →
      ∃ rest q, l = rest ++ [q] ∧ isInCollision q.angle rest tol = false
  | 0, existing, newP, tol, l => by
    intro h
    rw [resolveLoop] at h
    rcases hc : isInCollision newP.angle existing tol with _ | _
    · rw [hc] at h
      simp only [Bool.false_eq_true, if_false, Except.ok.injEq] at h
      exact ⟨existing, newP, h.symm, hc⟩
    · rw [hc] at h
      simp at h
  | Nat.succ fuel, existing, newP, tol, l => by
    intro h
    rw [resolveLoop] at h
    rcases hs : resolveStep existing newP tol with _ | r
    · rw [hs] at h
      simp only [Except.ok.injEq] at h
      exact ⟨existing, newP, h.symm, (resolveStep_none_iff newP tol existing).mp hs⟩
    · rw [hs] at h
      exact resolveLoop_ok fuel r.1 r.2 tol l h

theorem resolveLoop_error :
    ∀ (fuel : ℕ) (existing : List LocatedPoint) (newP : LocatedPoint) (tol : ℚ)
      (msg : String), resolveLoop fuel existing newP tol = Except.error msg →
      msg = unresolvedCollisionMsg
  | 0, existing, newP, tol, msg => by
    intro h
    rw [resolveLoop] at h
    rcases hc : isInCollision newP.angle existing tol with _ | _
    · rw [hc] at h
      simp at h
    · rw [hc] at h
      simp only [if_true] at h
      injection h with h
      exact h.symm
  | Nat.succ fuel, existing, newP, tol, msg => by
    intro h
    rw [resolveLoop] at h
    rcases hs : resolveStep existing newP tol with _ | r
    · rw [hs] at h
      simp at h
    · rw [hs] at h
      exact resolveLoop_error fuel r.1 r.2 tol msg h

/-- Modelled from the spec: one tracked body — a `longitude` plus an
optional `dailySpeed`; a present negative speed marks retrograde motion. -/
structure PositionEntry where
  name : String
  longitude : ℚ
  dailySpeed : Option ℚ
  deriving DecidableEq

/-- Modelled from the spec: a named angular relationship with a target
`degree` separation, an `orbit` tolerance and an inert display color. -/
structure AspectDef where
  name : String
  degree : ℚ
  orbit : ℚ
  color : String
  deriving DecidableEq

/-- Modelled from the spec: one detected relationship — the matched
definition's data, the two point names, and the signed precision. -/
structure AspectMatch where
  aspectName : String
  aspectDegree : ℚ
  aspectOrbit : ℚ
  aspectColor : String
  pointName : String
  toPointName : String
  precision : ℚ
  deriving DecidableEq

/-- Modelled from the spec: `aspect.ts` is not in the repository sources;
a pair of longitudes matches an aspect definition when the angular gap
deviates from the target degree by at most half the orbit.  The
repository's tests pin the half-orbit reading: with a square of orbit 8
the matching range is `[86, 94]` (`Moon=86` matches, `Moon=85` does not),
and a comment there reads "gap = 4, which is within orbit [-5, 5]" for a
conjunction of orbit 10. -/
def hasAspect (a b : ℚ) (d : AspectDef) : Bool :=
  decide (qabs (qsub (angularGap a b) d.degree) ≤ qhalf d.orbit)

/-- Modelled from the spec: radix-mode precision — the signed deviation
`gap - degree`. -/
def radixPrecision (a b : ℚ) (d : AspectDef) : ℚ := qsub (angularGap a b) d.degree

/-- Modelled from the spec: transit-mode precision.  The magnitude is the
deviation `|gap - degree|`; the sign is negative while the moving body
(at longitude `p`, moving forward) is approaching exactness and positive
once it is separating, which for the piecewise-linear gap means the sign
of `gap - degree` is kept on the rising half (`deltaAngle ≤ 180`) and
flipped on the falling half; a negative recorded speed (retrograde)
reverses the direction of approach and flips the sign again. -/
def transitPrecision (p t : ℚ) (d : AspectDef) (speed : Option ℚ) : ℚ :=
  let dev := qsub (angularGap p t) d.degree
  let signed := if deltaAngle p t ≤ 180 then dev else qneg dev
  match speed with
  | some s => if s < 0 then qneg signed else signed
  | none => signed

/-- All ordered pairs `(x, y)` with `x` occurring before `y` in the list:
each unordered pair of distinct positions is visited exactly once. -/
def pairsOf {α : Type} : List α → List (α × α)
  | [] => []
  | x :: xs => (xs.map fun y => (x, y)) ++ pairsOf xs

/-- Modelled from the spec: the radix-mode match for one pair and one
definition. -/
def mkRadixMatch (a b : PositionEntry) (d : AspectDef) : AspectMatch :=
  ⟨d.name, d.degree, d.orbit, d.color, a.name, b.name,
    radixPrecision a.longitude b.longitude d⟩

/-- Modelled from the spec: self-comparison — every unordered pair of
distinct bodies is evaluated once against every aspect definition. -/
def radixMatches (ps : List PositionEntry) (defs : List AspectDef) : List AspectMatch :=
  (pairsOf ps).flatMap fun ab =>
    defs.filterMap fun d =>
      if hasAspect ab.1.longitude ab.2.longitude d then some (mkRadixMatch ab.1 ab.2 d)
      else none

/-- Modelled from the spec: the transit-mode match for a moving point `p`
against a held reference point `t`. -/
def mkTransitMatch (p t : PositionEntry) (d : AspectDef) : AspectMatch :=
  ⟨d.name, d.degree, d.orbit, d.color, p.name, t.name,
    transitPrecision p.longitude t.longitude d p.dailySpeed⟩

/-- Modelled from the spec: cross-comparison — every moving point is
compared against every reference point (self-pairing permitted) for every
aspect definition. -/
def transitMatches (toPoints ps : List PositionEntry) (defs : List AspectDef) : List AspectMatch :=
  ps.flatMap fun p =>
    toPoints.flatMap fun t =>
      defs.filterMap fun d =>
        if hasAspect p.longitude t.longitude d then some (mkTransitMatch p t d)
        else none

/-- Ordering of matches by absolute precision (most exact first). -/
def precLE (m1 m2 : AspectMatch) : Prop := qabs m1.precision ≤ qabs m2.precision

instance : DecidableRel precLE := fun m1 m2 =>
  inferInstanceAs (Decidable (qabs m1.precision ≤ qabs m2.precision))

instance : IsTotal AspectMatch precLE :=
  ⟨fun m1 m2 => le_total (qabs m1.precision) (qabs m2.precision)⟩

instance : IsTrans AspectMatch precLE :=
  ⟨fun _ _ _ h1 h2 => le_trans h1 h2⟩

/-- Modelled from the spec: match lists are sorted ascending by absolute
precision. -/
def sortByPrecision (l : List AspectMatch) : List AspectMatch := l.insertionSort precLE

/-- Modelled from the spec: `aspect.ts` is not in the repository sources;
the calculator holds the reference point set and the configured aspect
definitions. -/
structure AspectCalculator where
  toPoints : List PositionEntry
  aspects : List AspectDef
  deriving DecidableEq

/-- Modelled from the spec: the constructor rejects a null reference point
set (the repository test asserts `new AspectCalculator(null)` throws),
while the comparison operations below accept a null set softly. -/
def AspectCalculator.make (toPoints : Option (List PositionEntry)) (defs : List AspectDef) :
    Except String AspectCalculator :=
  match toPoints with
  | none => Except.error "Counter points are required."
  | some tp => Except.ok ⟨tp, defs⟩

/-- Modelled from the spec: self-comparison ("radix") mode.  A null or
missing comparison set yields an empty result rather than an error. -/
def AspectCalculator.radix (c : AspectCalculator) (points : Option (List PositionEntry)) :
    List AspectMatch :=
  match points with
  | none => []
  | some ps => sortByPrecision (radixMatches ps c.aspects)

/-- Modelled from the spec: cross-comparison ("transit") mode.  A null or
missing comparison set yields an empty result rather than an error. -/
def AspectCalculator.transit (c : AspectCalculator) (points : Option (List PositionEntry)) :
    List AspectMatch :=
  match points with
  | none => []
  | some ps => sortByPrecision (transitMatches c.toPoints ps c.aspects)

/-- The aspect definitions used throughout the repository's tests. -/
def defaultAspects : List AspectDef :=
  [⟨"conjunction", 0, 10, "transparent"⟩,
   ⟨"square", 90, 8, "#FF4500"⟩,
   ⟨"trine", 120, 8, "#27AE60"⟩,
   ⟨"opposition", 180, 10, "#27AE60"⟩]

/-- Left-pad the fractional part to four digits. -/
def pad4 (n : ℕ) : String :=
  if n < 10 then "000" ++ Nat.repr n
  else if n < 100 then "00" ++ Nat.repr n
  else if n < 1000 then "0" ++ Nat.repr n
  else Nat.repr n

/-- Modelled from the spec: precision is formatted to 4 decimal places
(JavaScript `toFixed(4)`; ties round away from zero). -/
def toFixed4 (q : ℚ) : String :=
  let mag : ℕ := (2 * (q.num * 10000).natAbs + q.den) / (2 * q.den)
  let sign : String := if q.num < 0 ∧ mag ≠ 0 then "-" else ""
  sign ++ Nat.repr (mag / 10000) ++ "." ++ pad4 (mag % 10000)

/-- Modelled from the spec: the animation engine's per-run state, as far
as the completion protocol is concerned — accumulated elapsed time, the
configured duration, whether the engine's own tick source is running,
whether a completion callback was supplied and is callable, and how many
times that callback has been invoked. -/
structure Animator where
  timeSinceLoopStart : ℚ
  duration : ℚ
  timerRunning : Bool
  callbackCallable : Bool
  callbackCalls : ℕ
  deriving DecidableEq

/-- Modelled from the spec: one tick update.  Elapsed time is accumulated;
once it reaches or exceeds the duration the engine stops its own tick
source and invokes the completion callback when (and only when) one is
callable — a missing or non-callable callback is skipped without error. -/
def Animator.update (a : Animator) (delta : ℚ) : Animator :=
  let t := qadd a.timeSinceLoopStart delta
  if a.duration ≤ t then
    { a with timeSinceLoopStart := t, timerRunning := false,
             callbackCalls := a.callbackCalls + (if a.callbackCallable then 1 else 0) }
  else
    { a with timeSinceLoopStart := t }

/-- Modelled from the spec: the frame-driven tick source — ticks are
delivered one at a time, and only while the engine's timer is running; a
stopped timer delivers no further ticks. -/
def runTicks : Animator → List ℚ → Animator
  | a, [] => a
  | a, d :: ds => if a.timerRunning then runTicks (a.update d) ds else a

theorem runTicks_stopped (a : Animator) (h : a.timerRunning = false) :
    ∀ ds : List ℚ, runTicks a ds = a
  | [] => rfl
  | _ :: _ => by rw [runTicks, h]; simp

theorem hasAspect_iff (a b : ℚ) (d : AspectDef) :
    hasAspect a b d = true ↔ |angularGap a b - d.degree| ≤ d.orbit / 2 := by
  unfold hasAspect
  rw [qabs_eq, qsub_eq, qhalf_eq, decide_eq_true_eq]

theorem pairsOf_sublist {α : Type} (x y : α) :
    ∀ l : List α, (x, y) ∈ pairsOf l ↔ List.Sublist [x, y] l
  | [] => by simp [pairsOf]
  | a :: l => by
    rw [pairsOf, List.mem_append]
    constructor
    · intro h
      rcases h with h | h
      · rcases List.mem_map.mp h with ⟨z, hz, hzeq⟩
        have hx : x = a := by
          have := congrArg Prod.fst hzeq
          simpa using this.symm
        have hy : y = z := by
          have := congrArg Prod.snd hzeq
          simpa using this.symm
        subst hx
        subst hy
        exact List.Sublist.cons₂ x (List.singleton_sublist.mpr hz)
      · exact List.Sublist.cons a ((pairsOf_sublist x y l).mp h)
    · intro h
      cases h with
      | cons _ h => exact Or.inr ((pairsOf_sublist x y l).mpr h)
      | cons₂ _ h => exact Or.inl (List.mem_map.mpr ⟨y, List.singleton_sublist.mp h, rfl⟩)

theorem sublist_pair_of_mem {α : Type} :
    ∀ (l : List α) (a b : α), a ∈ l → b ∈ l → a ≠ b → List.Sublist [a, b] l ∨ List.Sublist [b, a] l
  | [], a, b, ha, _, _ => absurd ha (List.not_mem_nil a)
  | x :: l, a, b, ha, hb, hab => by
    rcases List.mem_cons.mp ha with hax | ha'
    · subst hax
      have hb' : b ∈ l := by
        rcases List.mem_cons.mp hb with hbx | hb'
        · exact absurd hbx.symm hab
        · exact hb'
      exact Or.inl (List.Sublist.cons₂ a (List.singleton_sublist.mpr hb'))
    · rcases List.mem_cons.mp hb with hbx | hb'
      · subst hbx
        exact Or.inr (List.Sublist.cons₂ b (List.singleton_sublist.mpr ha'))
      · rcases sublist_pair_of_mem l a b ha' hb' hab with h | h
        · exact Or.inl (List.Sublist.cons x h)
        · exact Or.inr (List.Sublist.cons x h)

theorem mem_radixMatches_iff (ps : List PositionEntry) (defs : List AspectDef)
    (m : AspectMatch) :
    m ∈ radixMatches ps defs ↔
      ∃ a b d, (a, b) ∈ pairsOf ps ∧ d ∈ defs ∧
        hasAspect a.longitude b.longitude d = true ∧ m = mkRadixMatch a b d := by
  unfold radixMatches
  rw [List.mem_flatMap]
  constructor
  · rintro ⟨ab, hab, hm⟩
    rcases List.mem_filterMap.mp hm with ⟨d, hd, hsome⟩
    by_cases hA : hasAspect ab.1.longitude ab.2.longitude d = true
    · rw [if_pos hA] at hsome
      injection hsome with hsome
      exact ⟨ab.1, ab.2, d, by simpa using hab, hd, hA, hsome.symm⟩
    · rw [if_neg hA] at hsome
      cases hsome
  · rintro ⟨a, b, d, hab, hd, hA, hm⟩
    refine ⟨(a, b), hab, List.mem_filterMap.mpr ⟨d, hd, ?_⟩⟩
    rw [if_pos hA, hm]

theorem mem_transitMatches_iff (toPoints ps : List PositionEntry) (defs : List AspectDef)
    (m : AspectMatch) :
    m ∈ transitMatches toPoints ps defs ↔
      ∃ p t d, p ∈ ps ∧ t ∈ toPoints ∧ d ∈ defs ∧
        hasAspect p.longitude t.longitude d = true ∧ m = mkTransitMatch p t d := by
  unfold transitMatches
  rw [List.mem_flatMap]
  constructor
  · rintro ⟨p, hp, hm⟩
    rcases List.mem_flatMap.mp hm with ⟨t, ht, hm2⟩
    rcases List.mem_filterMap.mp hm2 with ⟨d, hd, hsome⟩
    by_cases hA : hasAspect p.longitude t.longitude d = true
    · rw [if_pos hA] at hsome
      injection hsome with hsome
      exact ⟨p, t, d, hp, ht, hd, hA, hsome.symm⟩
    · rw [if_neg hA] at hsome
      cases hsome
  · rintro ⟨p, t, d, hp, ht, hd, hA, hm⟩
    refine ⟨p, hp, List.mem_flatMap.mpr ⟨t, ht, List.mem_filterMap.mpr ⟨d, hd, ?_⟩⟩⟩
    rw [if_pos hA, hm]

theorem mem_sortByPrecision (l : List AspectMatch) (m : AspectMatch) :
    m ∈ sortByPrecision l ↔ m ∈ l := by
  unfold sortByPrecision
  exact List.mem_insertionSort precLE

theorem resolveLoop_no_collision (fuel : ℕ) (hf : fuel ≠ 0) (existing : List LocatedPoint)
    (p : LocatedPoint) (tol : ℚ) (h : isInCollision p.angle existing tol = false) :
    resolveLoop fuel existing p tol = Except.ok (existing ++ [p]) := by
  cases fuel with
  | zero => exact absurd rfl hf
  | succ f =>
    have hnone : resolveStep existing p tol = none := (resolveStep_none_iff p tol existing).mpr h
    simp only [resolveLoop, hnone]

/-- Claim C5: `assemble` of a single point returns that point unchanged,
and when the new point collides with nothing in the existing set, all
points come back with their original angles (indeed, as the very same
records). -/
theorem assemble_preserves_positions (existing : List LocatedPoint) (p : LocatedPoint)
    (u : Universe) (tol : ℚ) (h : isInCollision p.angle existing tol = false) :
    assemble [] p u tol = Except.ok [p] ∧
    assemble existing p u tol = Except.ok (existing ++ [p]) := by
  refine ⟨rfl, ?_⟩
  cases existing with
  | nil => rfl
  | cons q qs =>
    have hne : resolutionBound (q :: qs).length ≠ 0 := by
      unfold resolutionBound
      omega
    simp only [assemble, List.isEmpty_cons, Bool.false_eq_true, if_false]
    exact resolveLoop_no_collision _ hne _ _ _ h

theorem assemble_preserves_positions_witness :
    assemble [] ⟨"A", 100, 0, 10, 180, none⟩ ⟨0, 0, 100⟩ 10 =
      Except.ok [⟨"A", 100, 0, 10, 180, none⟩] ∧
    assemble [⟨"B", 0, 0, 10, 0, none⟩] ⟨"A", 100, 0, 10, 180, none⟩ ⟨0, 0, 100⟩ 10 =
      Except.ok ([⟨"B", 0, 0, 10, 0, none⟩] ++ [⟨"A", 100, 0, 10, 180, none⟩]) :=
  assemble_preserves_positions [⟨"B", 0, 0, 10, 0, none⟩] ⟨"A", 100, 0, 10, 180, none⟩
    ⟨0, 0, 100⟩ 10 (by decide)

/-- Claim C4: `assemble` never returns a layout in which the placed point
is still in collision — an `ok` result always carries a collision-free
placement, and every failure carries the unresolved-collision message; in
particular, three points at 0°, 90° and 180° plus a fourth at 270° under
a 100° collision tolerance on a minimal circle fail with the
unresolved-collision error. -/
theorem assemble_unresolved_collision (existing : List LocatedPoint) (p : LocatedPoint)
    (u : Universe) (tol : ℚ) (l : List LocatedPoint) (msg : String) :
    (assemble existing p u tol = Except.ok l →
      ∃ rest q, l = rest ++ [q] ∧ isInCollision q.angle rest tol = false) ∧
    (assemble existing p u tol = Except.error msg → msg = unresolvedCollisionMsg) ∧
    assemble [⟨"A", 0, 0, 100, 0, none⟩, ⟨"B", 0, 0, 100, 90, none⟩, ⟨"C", 0, 0, 100, 180, none⟩]
      ⟨"D", 0, 0, 100, 270, none⟩ ⟨0, 0, 1⟩ 100 = Except.error unresolvedCollisionMsg := by
  refine ⟨?_, ?_, by rfl⟩
  · intro h
    unfold assemble at h
    by_cases he : existing.isEmpty
    · rw [if_pos he] at h
      injection h with h
      exact ⟨[], p, h.symm, by simp [isInCollision]⟩
    · rw [if_neg he] at h
      exact resolveLoop_ok _ _ _ _ _ h
  · intro h
    unfold assemble at h
    by_cases he : existing.isEmpty
    · rw [if_pos he] at h
      exact absurd h (by simp)
    · rw [if_neg he] at h
      exact resolveLoop_error _ _ _ _ _ h

theorem assemble_unresolved_collision_witness :
    assemble [⟨"A", 0, 0, 100, 0, none⟩, ⟨"B", 0, 0, 100, 90, none⟩, ⟨"C", 0, 0, 100, 180, none⟩]
      ⟨"D", 0, 0, 100, 270, none⟩ ⟨0, 0, 1⟩ 100 = Except.error unresolvedCollisionMsg :=
  (assemble_unresolved_collision [] ⟨"D", 0, 0, 100, 270, none⟩ ⟨0, 0, 1⟩ 100 [] "").2.2

/-- Claim C6: in both modes every returned match list is sorted so that
the absolute precision is non-decreasing from the first element to the
last. -/
theorem aspect_lists_sorted_by_abs_precision (c : AspectCalculator)
    (pts : Option (List PositionEntry)) :
    List.Pairwise (fun m1 m2 => |m1.precision| ≤ |m2.precision|) (c.radix pts) ∧
    List.Pairwise (fun m1 m2 => |m1.precision| ≤ |m2.precision|) (c.transit pts) := by
  have key : ∀ l : List AspectMatch,
      List.Pairwise (fun m1 m2 => |m1.precision| ≤ |m2.precision|) (sortByPrecision l) := by
    intro l
    have hs : List.Sorted precLE (sortByPrecision l) := List.sorted_insertionSort precLE l
    refine List.Pairwise.imp ?_ hs
    intro m1 m2 h
    have h' : qabs m1.precision ≤ qabs m2.precision := h
    rwa [qabs_eq, qabs_eq] at h'
  cases pts with
  | none => exact ⟨List.Pairwise.nil, List.Pairwise.nil⟩
  | some ps => exact ⟨key _, key _⟩

/-- Claim C8: a null or missing comparison set makes both the radix and
the transit operation return an empty match list (they are total
functions — no error is raised). -/
theorem null_comparison_set_empty (c : AspectCalculator) :
    c.radix none = [] ∧ c.transit none = [] :=
  ⟨rfl, rfl⟩

/-- Claim C10: constructing a calculator from a null reference point set
fails with an error, in contrast to the radix/transit operations, which
accept a null comparison set and return an empty list. -/
theorem constructor_null_reference_error (defs : List AspectDef) (c : AspectCalculator) :
    AspectCalculator.make none defs = Except.error "Counter points are required." ∧
    c.radix none = [] ∧ c.transit none = [] :=
  ⟨rfl, rfl, rfl⟩

/-- Claim C9: on a tick whose accumulated elapsed time reaches or exceeds
the configured duration, the engine stops its own tick source and invokes
the completion callback exactly once when it is callable and not at all
when it is absent (without error, the update being a total function); a
stopped tick source delivers no further ticks, so the callback can never
fire again in the same run. -/
theorem animator_completion (a : Animator) (d : ℚ) (ds : List ℚ)
    (hz : a.callbackCalls = 0) (hd : a.duration ≤ qadd a.timeSinceLoopStart d) :
    (a.update d).timerRunning = false ∧
    (a.update d).callbackCalls = (if a.callbackCallable then 1 else 0) ∧
    runTicks (a.update d) ds = a.update d := by
  have hu : a.update d =
      { a with timeSinceLoopStart := qadd a.timeSinceLoopStart d, timerRunning := false,
               callbackCalls := a.callbackCalls + (if a.callbackCallable then 1 else 0) } := by
    unfold Animator.update
    rw [if_pos hd]
  rw [hu]
  refine ⟨rfl, ?_, ?_⟩
  · rw [hz]
    simp
  · exact runTicks_stopped _ rfl ds

theorem animator_completion_witness :
    ((⟨90, 100, true, true, 0⟩ : Animator).update 20).timerRunning = false ∧
    ((⟨90, 100, true, true, 0⟩ : Animator).update 20).callbackCalls =
      (if (⟨90, 100, true, true, 0⟩ : Animator).callbackCallable then 1 else 0) ∧
    runTicks ((⟨90, 100, true, true, 0⟩ : Animator).update 20) [5, 5] =
      (⟨90, 100, true, true, 0⟩ : Animator).update 20 :=
  animator_completion ⟨90, 100, true, true, 0⟩ 20 [5, 5] rfl (by decide)

/-- Claim C2: with `Sun = 0°` and `Moon = 90°` the radix calculation under
the test's aspect set returns exactly one match, named "square", with
precision formatted as "0.0000"; with `Moon = 85°` there is no square
match; with `Moon = 86°` there is exactly one square match (edge of the
half-orbit range `[86, 94]`). -/
theorem radix_square_edge_cases :
    (AspectCalculator.radix ⟨[⟨"Sun", 0, none⟩, ⟨"Moon", 90, none⟩], defaultAspects⟩
      (some [⟨"Sun", 0, none⟩, ⟨"Moon", 90, none⟩])).map
        (fun m => (m.aspectName, toFixed4 m.precision)) = [("square", "0.0000")] ∧
    (AspectCalculator.radix ⟨[⟨"Sun", 0, none⟩, ⟨"Moon", 85, none⟩], defaultAspects⟩
      (some [⟨"Sun", 0, none⟩, ⟨"Moon", 85, none⟩])).filter
        (fun m => decide (m.aspectName = "square")) = [] ∧
    ((AspectCalculator.radix ⟨[⟨"Sun", 0, none⟩, ⟨"Moon", 86, none⟩], defaultAspects⟩
      (some [⟨"Sun", 0, none⟩, ⟨"Moon", 86, none⟩])).filter
        (fun m => decide (m.aspectName = "square"))).length = 1 := by
  refine ⟨by decide, by decide, by decide⟩

/-- Claim C7: in self-comparison (radix) mode no returned match pairs a
point name with itself, for any input set with distinct names; in
cross-comparison (transit) mode the same name on both sides is permitted
and productive — natal `Sun = 0°` against transiting `Sun = 90°` yields a
match. -/
theorem radix_no_self_aspects (es : List PositionEntry) (defs : List AspectDef)
    (hn : (es.map PositionEntry.name).Nodup) :
    (∀ m ∈ AspectCalculator.radix ⟨es, defs⟩ (some es), m.pointName ≠ m.toPointName) ∧
    0 < (AspectCalculator.transit ⟨[⟨"Sun", 0, none⟩], defaultAspects⟩
      (some [⟨"Sun", 90, none⟩])).length := by
  refine ⟨?_, by decide⟩
  intro m hm
  simp only [AspectCalculator.radix] at hm
  rw [mem_sortByPrecision] at hm
  rcases (mem_radixMatches_iff es defs m).mp hm with ⟨a, b, dd, hab, _, _, hmx⟩
  subst hmx
  have hsub := (pairsOf_sublist a b es).mp hab
  have hmap : List.Sublist [a.name, b.name] (es.map PositionEntry.name) := by
    have := hsub.map PositionEntry.name
    simpa using this
  have hnd : ([a.name, b.name]).Nodup := List.Nodup.sublist hmap hn
  have hne : a.name ≠ b.name := by
    rw [List.nodup_cons] at hnd
    simpa using hnd.1
  simpa [mkRadixMatch] using hne

theorem radix_no_self_aspects_witness :
    (∀ m ∈ AspectCalculator.radix
        ⟨[⟨"Sun", 0, none⟩, ⟨"Moon", 90, none⟩], defaultAspects⟩
        (some [⟨"Sun", 0, none⟩, ⟨"Moon", 90, none⟩]), m.pointName ≠ m.toPointName) ∧
    0 < (AspectCalculator.transit ⟨[⟨"Sun", 0, none⟩], defaultAspects⟩
      (some [⟨"Sun", 90, none⟩])).length :=
  radix_no_self_aspects [⟨"Sun", 0, none⟩, ⟨"Moon", 90, none⟩] defaultAspects (by decide)

/-- Claim C1 counterexample: with `Sun = 0°`, `Moon = 85°` and the square
definition `degree 90, orbit 8`, the full-orbit bound of the claim holds
(`|85 - 90| = 5 ≤ 8`), yet the calculator reports no square match for the
pair — matching actually uses half the orbit on each side. -/
theorem radix_full_orbit_rule_refuted :
    |angularGap 0 85 - (90 : ℚ)| ≤ 8 ∧
    (AspectCalculator.radix ⟨[⟨"Sun", 0, none⟩, ⟨"Moon", 85, none⟩], defaultAspects⟩
      (some [⟨"Sun", 0, none⟩, ⟨"Moon", 85, none⟩])).filter
        (fun m => decide (m.aspectName = "square")) = [] := by
  constructor
  · rw [show angularGap 0 85 = 85 from by decide,
        show (85 : ℚ) - 90 = -5 from by norm_num, abs_neg,
        abs_of_nonneg (by norm_num : (0 : ℚ) ≤ 5)]
    norm_num
  · decide

/-- Claim C1 (amended): for position sets and aspect sets with distinct
names, the radix calculation reports a match of definition `D` for the
pair `(A, B)` exactly when the angular gap of their longitudes deviates
from `D.degree` by at most `D.orbit / 2` — half the orbit on each side,
not the full orbit. -/
theorem radix_match_iff_half_orbit (es : List PositionEntry) (defs : List AspectDef)
    (hn : (es.map PositionEntry.name).Nodup) (hd : (defs.map AspectDef.name).Nodup)
    (a b : PositionEntry) (ha : a ∈ es) (hb : b ∈ es) (hab : a.name ≠ b.name)
    (D : AspectDef) (hD : D ∈ defs) :
    (∃ m ∈ AspectCalculator.radix ⟨es, defs⟩ (some es),
        m.aspectName = D.name ∧
        ((m.pointName = a.name ∧ m.toPointName = b.name) ∨
         (m.pointName = b.name ∧ m.toPointName = a.name))) ↔
      |angularGap a.longitude b.longitude - D.degree| ≤ D.orbit / 2 := by
  constructor
  · rintro ⟨m, hm, hname, hpts⟩
    simp only [AspectCalculator.radix] at hm
    rw [mem_sortByPrecision] at hm
    rcases (mem_radixMatches_iff es defs m).mp hm with ⟨x, y, dd, hxy, hdd, hA, hmx⟩
    subst hmx
    have hdname : dd.name = D.name := by simpa [mkRadixMatch] using hname
    have hdeq : dd = D := List.inj_on_of_nodup_map hd hdd hD hdname
    subst hdeq
    have hsub := (pairsOf_sublist x y es).mp hxy
    have hxes : x ∈ es := hsub.subset (by simp)
    have hyes : y ∈ es := hsub.subset (by simp)
    rcases hpts with ⟨h1, h2⟩ | ⟨h1, h2⟩
    · have hxa : x = a :=
        List.inj_on_of_nodup_map hn hxes ha (by simpa [mkRadixMatch] using h1)
      have hyb : y = b :=
        List.inj_on_of_nodup_map hn hyes hb (by simpa [mkRadixMatch] using h2)
      subst hxa
      subst hyb
      exact (hasAspect_iff _ _ _).mp hA
    · have hxb : x = b :=
        List.inj_on_of_nodup_map hn hxes hb (by simpa [mkRadixMatch] using h1)
      have hya : y = a :=
        List.inj_on_of_nodup_map hn hyes ha (by simpa [mkRadixMatch] using h2)
      subst hxb
      subst hya
      have := (hasAspect_iff _ _ _).mp hA
      rwa [angularGap_symm] at this
  · intro hgap
    have hne : a ≠ b := fun he => hab (congrArg PositionEntry.name he)
    rcases sublist_pair_of_mem es a b ha hb hne with hs | hs
    · refine ⟨mkRadixMatch a b D, ?_, rfl, Or.inl ⟨rfl, rfl⟩⟩
      simp only [AspectCalculator.radix]
      rw [mem_sortByPrecision]
      exact (mem_radixMatches_iff _ _ _).mpr
        ⟨a, b, D, (pairsOf_sublist a b es).mpr hs, hD, (hasAspect_iff _ _ _).mpr hgap, rfl⟩
    · refine ⟨mkRadixMatch b a D, ?_, rfl, Or.inr ⟨rfl, rfl⟩⟩
      simp only [AspectCalculator.radix]
      rw [mem_sortByPrecision]
      refine (mem_radixMatches_iff _ _ _).mpr
        ⟨b, a, D, (pairsOf_sublist b a es).mpr hs, hD, ?_, rfl⟩
      rw [hasAspect_iff, angularGap_symm]
      exact hgap

theorem radix_match_iff_half_orbit_witness :
    (∃ m ∈ AspectCalculator.radix
        ⟨[⟨"Sun", 0, none⟩, ⟨"Moon", 90, none⟩], defaultAspects⟩
        (some [⟨"Sun", 0, none⟩, ⟨"Moon", 90, none⟩]),
        m.aspectName = (⟨"square", 90, 8, "#FF4500"⟩ : AspectDef).name ∧
        ((m.pointName = (⟨"Sun", 0, none⟩ : PositionEntry).name ∧
          m.toPointName = (⟨"Moon", 90, none⟩ : PositionEntry).name) ∨
         (m.pointName = (⟨"Moon", 90, none⟩ : PositionEntry).name ∧
          m.toPointName = (⟨"Sun", 0, none⟩ : PositionEntry).name))) ↔
      |angularGap (⟨"Sun", 0, none⟩ : PositionEntry).longitude
          (⟨"Moon", 90, none⟩ : PositionEntry).longitude -
        (⟨"square", 90, 8, "#FF4500"⟩ : AspectDef).degree| ≤
        (⟨"square", 90, 8, "#FF4500"⟩ : AspectDef).orbit / 2 :=
  radix_match_iff_half_orbit [⟨"Sun", 0, none⟩, ⟨"Moon", 90, none⟩] defaultAspects
    (by decide) (by decide) ⟨"Sun", 0, none⟩ ⟨"Moon", 90, none⟩ (by decide) (by decide)
    (by decide) ⟨"square", 90, 8, "#FF4500"⟩ (by decide)

theorem transitPrecision_none (p t : ℚ) (d : AspectDef) :
    transitPrecision p t d none =
      if deltaAngle p t ≤ 180 then angularGap p t - d.degree
      else -(angularGap p t - d.degree) := by
  unfold transitPrecision
  rcases le_or_lt (deltaAngle p t) 180 with h | h
  · simp only [if_pos h, qsub_eq]
  · simp only [if_neg (not_le.mpr h), qneg_eq, qsub_eq]

theorem transitPrecision_some (p t : ℚ) (d : AspectDef) (s : ℚ) :
    transitPrecision p t d (some s) =
      if s < 0 then -(transitPrecision p t d none) else transitPrecision p t d none := by
  unfold transitPrecision
  rcases lt_or_le s 0 with h | h
  · simp only [if_pos h, qneg_eq]
  · simp only [if_neg (not_lt.mpr h)]

/-- A strictly positive step budget below which a forward step of the
moving point changes the gap linearly and cannot overshoot exactness:
half of the smaller of the current deviation and the distance to the
nearest extremum of the gap function. -/
def approachEps (p t : ℚ) (d : AspectDef) : ℚ :=
  let dev := qabs (qsub (angularGap p t) d.degree)
  let margin := if deltaAngle p t ≤ 180 then qsub 180 (deltaAngle p t)
                else qsub 360 (deltaAngle p t)
  qhalf (if dev ≤ margin then dev else margin)

theorem approachEps_eq (p t : ℚ) (d : AspectDef) :
    approachEps p t d =
      (min |angularGap p t - d.degree|
        (if deltaAngle p t ≤ 180 then 180 - deltaAngle p t else 360 - deltaAngle p t)) / 2 := by
  unfold approachEps
  simp only [qabs_eq, qsub_eq, qhalf_eq, min_def]

theorem gap_step_low (p t h : ℚ) (hd : deltaAngle p t < 180) (h0 : 0 ≤ h)
    (h1 : deltaAngle p t + h ≤ 180) : angularGap (p + h) t = angularGap p t + h := by
  have hdelta : deltaAngle (p + h) t = deltaAngle p t + h := by
    rw [deltaAngle_eq, deltaAngle_eq, show p + h - t = (p - t) + h from by ring]
    refine normalizeAngle_add (p - t) h h0 ?_
    rw [← deltaAngle_eq]
    linarith
  rw [angularGap_eq_delta, angularGap_eq_delta, hdelta, if_pos h1, if_pos (le_of_lt hd)]

theorem gap_step_high (p t h : ℚ) (hd : 180 < deltaAngle p t) (h0 : 0 ≤ h)
    (h1 : deltaAngle p t + h < 360) : angularGap (p + h) t = angularGap p t - h := by
  have hdelta : deltaAngle (p + h) t = deltaAngle p t + h := by
    rw [deltaAngle_eq, deltaAngle_eq, show p + h - t = (p - t) + h from by ring]
    refine normalizeAngle_add (p - t) h h0 ?_
    rw [← deltaAngle_eq]
    linarith
  rw [angularGap_eq_delta, angularGap_eq_delta, hdelta,
      if_neg (by push_neg; linarith), if_neg (not_le.mpr hd)]
  ring

/-- Claim C3: in cross-comparison mode the precision of a matched aspect
is negative exactly while a small forward step of the (direct-motion)
moving body would shrink the deviation from exactness — i.e. while it is
approaching — and positive once it is separating; flipping the sign of
the recorded speed (retrograde) flips the sign of the precision; in
particular natal `Sun = 0°` with transiting `Moon = 1°` yields a
conjunction with precision `+1` and transiting `Moon = 359°` one with
precision `-1`. -/
theorem transit_precision_sign (p t : ℚ) (d : AspectDef)
    (hdev : angularGap p t ≠ d.degree) (hmid : deltaAngle p t ≠ 180) :
    0 < approachEps p t d ∧
    (transitPrecision p t d none < 0 ↔
      ∀ h : ℚ, 0 < h → h ≤ approachEps p t d →
        |angularGap (p + h) t - d.degree| < |angularGap p t - d.degree|) ∧
    (∀ s : ℚ, 0 < s →
      transitPrecision p t d (some (-s)) = -transitPrecision p t d (some s)) ∧
    AspectCalculator.transit ⟨[⟨"Sun", 0, none⟩], defaultAspects⟩ (some [⟨"Moon", 1, none⟩]) =
      [⟨"conjunction", 0, 10, "transparent", "Moon", "Sun", 1⟩] ∧
    AspectCalculator.transit ⟨[⟨"Sun", 0, none⟩], defaultAspects⟩ (some [⟨"Moon", 359, none⟩]) =
      [⟨"conjunction", 0, 10, "transparent", "Moon", "Sun", -1⟩] := by
  have hδ1 := deltaAngle_lt p t
  have hdev0 : angularGap p t - d.degree ≠ 0 := sub_ne_zero.mpr hdev
  have habs : 0 < |angularGap p t - d.degree| := abs_pos.mpr hdev0
  have heq := approachEps_eq p t d
  have heps0 : 0 < approachEps p t d := by
    rw [heq]
    rcases le_or_lt (deltaAngle p t) 180 with hle | hgt
    · rw [if_pos hle]
      have hm : 0 < 180 - deltaAngle p t := by
        have := lt_of_le_of_ne hle hmid
        linarith
      have := lt_min habs hm
      linarith
    · rw [if_neg (not_le.mpr hgt)]
      have hm : 0 < 360 - deltaAngle p t := by linarith
      have := lt_min habs hm
      linarith
  have hflip : ∀ s : ℚ, 0 < s →
      transitPrecision p t d (some (-s)) = -transitPrecision p t d (some s) := by
    intro s hs
    rw [transitPrecision_some, transitPrecision_some, if_pos (by linarith : -s < 0),
        if_neg (not_lt.mpr (le_of_lt hs))]
  refine ⟨heps0, ?_, hflip, by decide, by decide⟩
  rcases le_or_lt (deltaAngle p t) 180 with hle | hgt
  · have hlt180 : deltaAngle p t < 180 := lt_of_le_of_ne hle hmid
    have hprec : transitPrecision p t d none = angularGap p t - d.degree := by
      rw [transitPrecision_none, if_pos hle]
    have heps1 : approachEps p t d ≤ |angularGap p t - d.degree| / 2 := by
      rw [heq, if_pos hle]
      have := min_le_left |angularGap p t - d.degree| (180 - deltaAngle p t)
      linarith
    have heps2 : approachEps p t d ≤ (180 - deltaAngle p t) / 2 := by
      rw [heq, if_pos hle]
      have := min_le_right |angularGap p t - d.degree| (180 - deltaAngle p t)
      linarith
    rw [hprec]
    constructor
    · intro hneg h hh0 hhe
      have habsneg : |angularGap p t - d.degree| = -(angularGap p t - d.degree) :=
        abs_of_neg hneg
      have hgap : angularGap (p + h) t = angularGap p t + h :=
        gap_step_low p t h hlt180 (le_of_lt hh0) (by linarith)
      rw [hgap, show angularGap p t + h - d.degree = (angularGap p t - d.degree) + h from by
        ring]
      have hstill : (angularGap p t - d.degree) + h < 0 := by linarith
      rw [abs_of_neg hstill, habsneg]
      linarith
    · intro hall
      by_contra hpos
      push_neg at hpos
      have hdevpos : 0 < angularGap p t - d.degree := lt_of_le_of_ne hpos (Ne.symm hdev0)
      have hkey := hall (approachEps p t d) heps0 le_rfl
      have hgap : angularGap (p + approachEps p t d) t = angularGap p t + approachEps p t d :=
        gap_step_low p t _ hlt180 (le_of_lt heps0) (by linarith)
      rw [hgap, show angularGap p t + approachEps p t d - d.degree =
            (angularGap p t - d.degree) + approachEps p t d from by ring,
          abs_of_pos (by linarith), abs_of_pos hdevpos] at hkey
      linarith
  · have hprec : transitPrecision p t d none = -(angularGap p t - d.degree) := by
      rw [transitPrecision_none, if_neg (not_le.mpr hgt)]
    have heps1 : approachEps p t d ≤ |angularGap p t - d.degree| / 2 := by
      rw [heq, if_neg (not_le.mpr hgt)]
      have := min_le_left |angularGap p t - d.degree| (360 - deltaAngle p t)
      linarith
    have heps2 : approachEps p t d ≤ (360 - deltaAngle p t) / 2 := by
      rw [heq, if_neg (not_le.mpr hgt)]
      have := min_le_right |angularGap p t - d.degree| (360 - deltaAngle p t)
      linarith
    rw [hprec]
    constructor
    · intro hneg h hh0 hhe
      have hdevpos : 0 < angularGap p t - d.degree := by linarith
      have habspos : |angularGap p t - d.degree| = angularGap p t - d.degree :=
        abs_of_pos hdevpos
      have hgap : angularGap (p + h) t = angularGap p t - h :=
        gap_step_high p t h hgt (le_of_lt hh0) (by linarith)
      rw [hgap, show angularGap p t - h - d.degree = (angularGap p t - d.degree) - h from by
        ring]
      have hstill : 0 < (angularGap p t - d.degree) - h := by
        rw [habspos] at heps1
        linarith
      rw [abs_of_pos hstill, habspos]
      linarith
    · intro hall
      by_contra hpos
      push_neg at hpos
      have hdevneg : angularGap p t - d.degree < 0 := by
        rcases lt_or_le (angularGap p t - d.degree) 0 with hc | hc
        · exact hc
        · exact absurd (le_antisymm (by linarith) hc) hdev0
      have hkey := hall (approachEps p t d) heps0 le_rfl
      have hgap : angularGap (p + approachEps p t d) t =
          angularGap p t - approachEps p t d :=
        gap_step_high p t _ hgt (le_of_lt heps0) (by linarith)
      rw [hgap, show angularGap p t - approachEps p t d - d.degree =
            (angularGap p t - d.degree) - approachEps p t d from by ring,
          abs_of_neg (by linarith), abs_of_neg hdevneg] at hkey
      linarith

theorem transit_precision_sign_witness :
    0 < approachEps 1 0 ⟨"conjunction", 0, 10, "transparent"⟩ ∧
    (transitPrecision 1 0 ⟨"conjunction", 0, 10, "transparent"⟩ none < 0 ↔
      ∀ h : ℚ, 0 < h → h ≤ approachEps 1 0 ⟨"conjunction", 0, 10, "transparent"⟩ →
        |angularGap (1 + h) 0 - (⟨"conjunction", 0, 10, "transparent"⟩ : AspectDef).degree| <
          |angularGap 1 0 - (⟨"conjunction", 0, 10, "transparent"⟩ : AspectDef).degree|) ∧
    (∀ s : ℚ, 0 < s →
      transitPrecision 1 0 ⟨"conjunction", 0, 10, "transparent"⟩ (some (-s)) =
        -transitPrecision 1 0 ⟨"conjunction", 0, 10, "transparent"⟩ (some s)) ∧
    AspectCalculator.transit ⟨[⟨"Sun", 0, none⟩], defaultAspects⟩ (some [⟨"Moon", 1, none⟩]) =
      [⟨"conjunction", 0, 10, "transparent", "Moon", "Sun", 1⟩] ∧
    AspectCalculator.transit ⟨[⟨"Sun", 0, none⟩], defaultAspects⟩ (some [⟨"Moon", 359, none⟩]) =
      [⟨"conjunction", 0, 10, "transparent", "Moon", "Sun", -1⟩] :=
  transit_precision_sign 1 0 ⟨"conjunction", 0, 10, "transparent"⟩ (by decide) (by decide)

end AstroChart
